import Mathlib

/-!
Shallow embedding of the telegraf-migration tool (src/main.go and
src/migrations/registry.go).

Text is modelled as `List Char` (the files are read as bytes and treated
as UTF-8 text; every byte the program inspects is ASCII).  Go's
`log.Fatalf` terminates the whole process; it is modelled by the `Except`
error monad with error type `RunError` (`.fatal msg` for `log.Fatal*`,
`.outOfRange` for a runtime slice-index panic).  Go map iteration order is
unspecified; maps are modelled as association lists, fixing one discovery
order.
-/

namespace TelegrafMigration

/-- Go `bytes.dropCR` (bufio): drop a single trailing carriage return. -/
def dropCR (l : List Char) : List Char :=
  if l ≠ [] ∧ l.getLast? = some '\r' then l.dropLast else l

/-- Accumulator pass of `scanLines`: `acc` holds the current line read
so far; a newline emits `dropCR acc` as a token, and a non-empty final
chunk is emitted as a last token of its own. -/
def scanLinesAux (acc : List Char) : List Char → List (List Char)
  | [] => if acc = [] then [] else [dropCR acc]
  | c :: rest =>
    if c = '\n' then dropCR acc :: scanLinesAux [] rest
    else scanLinesAux (acc ++ [c]) rest

/-- Go `bufio.Scanner` with `bufio.ScanLines`: split the input at every
newline byte, stripping the newline and at most one carriage return that
directly precedes it; a final non-empty chunk without a newline is
returned as a token of its own (also with a trailing CR dropped). -/
def scanLines (s : List Char) : List (List Char) :=
  scanLinesAux [] s

/-- Writing a list of scanner tokens back out, each with exactly one
trailing newline byte (`Write(scanner.Bytes()); WriteString("\n")`). -/
def joinTokens : List (List Char) → List Char
  | [] => []
  | t :: ts => t ++ '\n' :: joinTokens ts

/-- ASCII whitespace as recognized by Go `strings.TrimSpace` (the inputs
the scanner produces contain no other whitespace the program treats
specially). -/
def isSpaceChar (c : Char) : Bool :=
  c = ' ' || c = '\t' || c = '\n' || c = '\x0b' || c = '\x0c' || c = '\r'

/-- Go `strings.TrimSpace`: drop whitespace from both ends. -/
def trimSpace (l : List Char) : List Char :=
  ((l.dropWhile isSpaceChar).reverse.dropWhile isSpaceChar).reverse

/-- `strings.HasPrefix(strings.TrimSpace(line), "#")`. -/
def isCommentLine (tok : List Char) : Bool :=
  (trimSpace tok).head? = some '#'

/-- `strings.TrimSpace(line) == ""`. -/
def isBlankLine (tok : List Char) : Bool :=
  (trimSpace tok).isEmpty

mutual
/-- `ast.Table` of the external TOML parser: a name, the 1-based starting
line, and the named fields (a Go map, modelled as an association list in
one fixed iteration order). -/
inductive Tbl : Type where
  | mk : String → Nat → List (String × Elem) → Tbl

/-- The dynamic type of a field value as inspected by the Go type
assertions: a single `*ast.Table`, a `[]*ast.Table`, or any other shape
(e.g. `*ast.KeyValue`). -/
inductive Elem : Type where
  | table : Tbl → Elem
  | tableArray : List Tbl → Elem
  | keyValue : Elem
end

def Tbl.name : Tbl → String
  | .mk n _ _ => n

def Tbl.line : Tbl → Nat
  | .mk _ l _ => l

def Tbl.fields : Tbl → List (String × Elem)
  | .mk _ _ f => f

/-- The `section` struct of main.go (`section` is a Lean keyword, hence
the capital letter).  `raw` is the `*bytes.Buffer`, modelled by its
contents. -/
structure Section : Type where
  name : String
  begin : Nat
  content : Option Tbl
  raw : List Char

/-- A Go runtime abort: `log.Fatal*` (with its message) or a runtime
panic such as indexing an empty slice. -/
inductive RunError : Type where
  | fatal : List Char → RunError
  | outOfRange : RunError
deriving DecidableEq

/-- The category keywords of the `switch` in `splitToSections`. -/
def isCategory (name : String) : Bool :=
  name = "inputs" || name = "outputs" || name = "processors" || name = "aggregators"

/-- Inner loop of the category case of `splitToSections`: every child of
the category table must be a `[]*ast.Table`; each occurrence becomes one
section named `<category>.<tbl.Name>` at that occurrence's line.  The Go
error message ends with the offending value's dynamic type (`%T`), which
dynamic-type text the model omits. -/
def sectionsOfCategory (catName : String) : List (String × Elem) → Except RunError (List Section)
  | [] => .ok []
  | (plugin, e) :: rest =>
    match e with
    | .tableArray tbls =>
      (sectionsOfCategory catName rest).map
        (tbls.map (fun t => ⟨catName ++ "." ++ t.name, t.line, some t, []⟩) ++ ·)
    | _ =>
      .error (.fatal ("elements of \"" ++ catName ++ "." ++ plugin ++
        "\" is not a list of tables").toList)

/-- The field loop of `splitToSections` over `root.Fields` (one fixed
iteration order of the Go map; `log.Fatalf` aborts at the first bad
shape).  As in `sectionsOfCategory`, the `(%T)` suffix of the Go message
is omitted. -/
def splitToSectionsAux : List (String × Elem) → Except RunError (List Section)
  | [] => .ok []
  | (name, e) :: rest =>
    if isCategory name then
      match e with
      | .table cat =>
        match sectionsOfCategory name cat.fields with
        | .error err => .error err
        | .ok s =>
          match splitToSectionsAux rest with
          | .error err => .error err
          | .ok r => .ok (s ++ r)
      | _ => .error (.fatal ("\"" ++ name ++ "\" is not a table").toList)
    else
      match e with
      | .table t => (splitToSectionsAux rest).map (⟨name, t.line, some t, []⟩ :: ·)
      | _ => .error (.fatal ("\"" ++ name ++ "\" is not a table").toList)

/-- Stable insertion of a section into a list, by `begin` ascending:
the new element goes after every strictly smaller element and before the
first element that is not strictly smaller. -/
def insertByBegin (x : Section) : List Section → List Section
  | [] => [x]
  | y :: ys => if x.begin ≤ y.begin then x :: y :: ys else y :: insertByBegin x ys

/-- `sort.SliceStable(sections, less = begin <)`: a stable ascending sort
by `begin`.  A stable sort is unique as a function of its input, so
insertion sort models `sort.SliceStable` exactly. -/
def sortByBegin : List Section → List Section
  | [] => []
  | x :: xs => insertByBegin x (sortByBegin xs)

/-- `splitToSections` of main.go: flatten the parsed tree into sections
and stable-sort them by begin line. -/
def splitToSections (root : Tbl) : Except RunError (List Section) :=
  (splitToSectionsAux root.fields).map sortByBegin

/-- One pair iteration of the scan loop in `assignTextToSections`
(`for lineno < next.begin-1` with `stop = next.begin-1`): processes
tokens while `lineno < stop`, starting from pending-comment buffer `buf`.
Returns `(written, rest, lineno, buf)` where `written` is the text
appended to the current section's buffer (in write order), `rest` the
unconsumed tokens, and `buf` the pending-comment buffer at loop exit.
The Go code appends `written` to `sections[idx].raw` in place; the pure
model returns it. -/
def scanPair (stop : Nat) : List (List Char) → Nat → List Char →
    (List Char × List (List Char) × Nat × List Char)
  | [], lineno, buf => ([], [], lineno, buf)
  | tok :: rest, lineno, buf =>
    if lineno < stop then
      if isCommentLine tok then
        scanPair stop rest (lineno + 1) (buf ++ tok ++ ['\n'])
      else if isBlankLine tok && !buf.isEmpty then
        match scanPair stop rest (lineno + 1) [] with
        | (d, t, l, b) => (buf ++ tok ++ '\n' :: d, t, l, b)
      else
        match scanPair stop rest (lineno + 1) buf with
        | (d, t, l, b) => (tok ++ '\n' :: d, t, l, b)
    else ([], tok :: rest, lineno, buf)

/-- The loop `for idx, next := range sections[1:]` plus the trailing
"write the remaining to the last section" loop.  `cur` is
`sections[idx]`; each pair iteration starts with a fresh empty
pending-comment buffer (`var buf bytes.Buffer` is declared inside the
loop), appends the scanned text to `cur.raw`, and flushes a non-empty
left-over comment buffer into the *next* section's buffer. -/
def assignLoop : List (List Char) → Nat → Section → List Section → List Section
  | toks, _, cur, [] => [⟨cur.name, cur.begin, cur.content, cur.raw ++ joinTokens toks⟩]
  | toks, lineno, cur, next :: rest =>
    match scanPair (next.begin - 1) toks lineno [] with
    | (d, toks', lineno', buf') =>
      ⟨cur.name, cur.begin, cur.content, cur.raw ++ d⟩ ::
        assignLoop toks' lineno' ⟨next.name, next.begin, next.content, next.raw ++ buf'⟩ rest

/-- The synthetic header section prepended by `assignTextToSections`. -/
def headerSection : Section := ⟨"header", 0, none, []⟩

/-- `assignTextToSections` as executed: the callee prepends the header
section to its *local* slice when `sections[0].begin > 0` and fills all
buffers.  This definition returns that full local list (header
included).  `none` models the runtime panic of `sections[0]` on an empty
slice. -/
def assignLocal (data : List Char) (sections : List Section) : Option (List Section) :=
  match sections with
  | [] => none
  | s0 :: rest =>
    if s0.begin > 0 then some (assignLoop (scanLines data) 0 headerSection (s0 :: rest))
    else some (assignLoop (scanLines data) 0 s0 rest)

/-- The caller-visible effect of `assignTextToSections`: the caller's
slice shares the non-header sections' buffers with the callee's local
slice, but never contains the synthetic header section (the `append`
inside the callee rebinds only the local variable), so from the caller's
point of view the header and its buffer are dropped. -/
def assignTextToSections (data : List Char) (sections : List Section) : Option (List Section) :=
  match sections with
  | [] => none
  | s0 :: rest =>
    if s0.begin > 0 then some ((assignLoop (scanLines data) 0 headerSection (s0 :: rest)).tail)
    else some (assignLoop (scanLines data) 0 s0 rest)

/-- `PluginMigrationFunc`: from the section's structured content (`nil`
for the synthetic header, hence `Option`) to replacement bytes or an
error. -/
abbrev MigFunc : Type := Option Tbl → Except (List Char) (List Char)

/-- The `PluginMigrations` map, modelled as an association list. -/
abbrev Registry : Type := List (String × MigFunc)

/-- Go map lookup `PluginMigrations[name]`. -/
def lookupReg (reg : Registry) (name : String) : Option MigFunc :=
  match reg with
  | [] => none
  | (n, f) :: rest => if n = name then some f else lookupReg rest name

/-- `AddPluginMigration` of registry.go: `panic` if the name is already
registered, otherwise add the entry. -/
def AddPluginMigration (reg : Registry) (name : String) (f : MigFunc) :
    Except (List Char) Registry :=
  match lookupReg reg name with
  | some _ =>
    .error (("plugin migration function already registered for \"" ++ name ++ "\"").toList)
  | none => .ok (reg ++ [(name, f)])

/-- A sequence of `AddPluginMigration` calls against a starting registry
(the bundled catalog registers its migrations one after another at
startup; the first `panic` aborts). -/
def registerFrom (reg : Registry) : List (String × MigFunc) → Except (List Char) Registry
  | [] => .ok reg
  | e :: rest =>
    match AddPluginMigration reg e.1 e.2 with
    | .error msg => .error msg
    | .ok reg' => registerFrom reg' rest

/-- A startup sequence of registrations, starting from the empty map. -/
def registerAll (entries : List (String × MigFunc)) : Except (List Char) Registry :=
  registerFrom [] entries

/-- The migration loop of `main`: look every section's name up in the
registry; replace `raw` wholesale on success, `log.Fatalf` on error,
leave the section untouched when no migration is registered. -/
def dispatchSections (reg : Registry) : List Section → Except RunError (List Section)
  | [] => .ok []
  | s :: rest =>
    match lookupReg reg s.name with
    | none => (dispatchSections reg rest).map (s :: ·)
    | some migrate =>
      match migrate s.content with
      | .error e =>
        .error (.fatal (("migrating \"" ++ s.name ++ "\" (line " ++ toString s.begin ++
          ") failed: ").toList ++ e))
      | .ok result => (dispatchSections reg rest).map (⟨s.name, s.begin, s.content, result⟩ :: ·)

/-- The output assembler of `main`: concatenate all sections' buffers in
list order. -/
def rawConcat (sections : List Section) : List Char :=
  (sections.map Section.raw).flatten

/-- Per-file body of `main`'s loop, after the external `toml.Parse`
produced `root` from `data`: split, check non-emptiness, assign raw
text, dispatch migrations, assemble the output bytes. -/
def processFile (reg : Registry) (data : List Char) (root : Tbl) :
    Except RunError (List Char) :=
  match splitToSections root with
  | .error e => .error e
  | .ok sections =>
    if sections.isEmpty then
      .error (.fatal ("no TOML configuration found").toList)
    else
      match assignTextToSections data sections with
      | none => .error .outOfRange
      | some assigned =>
        match dispatchSections reg assigned with
        | .error e => .error e
        | .ok migrated => .ok (rawConcat migrated)

/-- The multi-file loop of `main`: files are processed in order; any
`log.Fatal`/panic terminates the whole process, so an error in one file
prevents every later file from being processed. -/
def runFiles (reg : Registry) : List (List Char × Tbl) → Except RunError (List (List Char))
  | [] => .ok []
  | (data, root) :: rest =>
    match processFile reg data root with
    | .error e => .error e
    | .ok out =>
      match runFiles reg rest with
      | .error e => .error e
      | .ok outs => .ok (out :: outs)

/-! ## Registry lemmas (C6) -/

/-- Number of entries registered under a given name. -/
def countName (reg : Registry) (n : String) : Nat :=
  (reg.filter (fun e => e.1 == n)).length

theorem lookupReg_none_countName {reg : Registry} {n : String}
    (h : lookupReg reg n = none) : countName reg n = 0 := by
  induction reg with
  | nil => rfl
  | cons e rest ih =>
    obtain ⟨m, f⟩ := e
    simp only [lookupReg] at h
    by_cases hm : m = n
    · rw [if_pos hm] at h
      cases h
    · rw [if_neg hm] at h
      have hb : (m == n) = false := by simpa using hm
      simp only [countName, List.filter_cons, hb, Bool.false_eq_true, if_false]
      exact ih h

theorem countName_append (a b : Registry) (n : String) :
    countName (a ++ b) n = countName a n + countName b n := by
  simp [countName, List.filter_append]

theorem addPluginMigration_ok {reg reg' : Registry} {name : String} {f : MigFunc}
    (h : AddPluginMigration reg name f = .ok reg') :
    lookupReg reg name = none ∧ reg' = reg ++ [(name, f)] := by
  unfold AddPluginMigration at h
  cases hl : lookupReg reg name with
  | none =>
    rw [hl] at h
    exact ⟨rfl, (Except.ok.inj h).symm⟩
  | some g =>
    rw [hl] at h
    cases h

theorem registerFrom_at_most_one :
    ∀ (entries : List (String × MigFunc)) (reg0 reg : Registry),
    (∀ n, countName reg0 n ≤ 1) → registerFrom reg0 entries = .ok reg →
    ∀ n, countName reg n ≤ 1 := by
  intro entries
  induction entries with
  | nil =>
    intro reg0 reg h0 hrun n
    simp only [registerFrom] at hrun
    cases hrun
    exact h0 n
  | cons e rest ih =>
    intro reg0 reg h0 hrun n
    simp only [registerFrom] at hrun
    cases hadd : AddPluginMigration reg0 e.1 e.2 with
    | error msg =>
      rw [hadd] at hrun
      cases hrun
    | ok reg1 =>
      rw [hadd] at hrun
      obtain ⟨hnone, hreg1⟩ := addPluginMigration_ok hadd
      refine ih reg1 reg ?_ hrun n
      intro m
      subst hreg1
      rw [countName_append]
      by_cases hm : e.1 = m
      · have h0' : countName reg0 m = 0 := hm ▸ lookupReg_none_countName hnone
        have h1 : countName [(e.1, e.2)] m ≤ 1 := by
          cases hbe : (e.1 == m) <;> simp [countName, List.filter_cons, hbe]
        omega
      · have hb : (e.1 == m) = false := by simpa using hm
        have h1 : countName [(e.1, e.2)] m = 0 := by
          simp [countName, List.filter_cons, hb]
        rw [h1]
        simpa using h0 m

/-- C6: `AddPluginMigration` fails (panics) exactly when the name is
already present, so any successful startup registration sequence yields
a registry with at most one migration per qualified name; a duplicate is
reported, never silently ignored or overridden. -/
theorem registry_at_most_one_match :
    ∀ (entries : List (String × MigFunc)) (reg : Registry),
    registerAll entries = .ok reg →
    (∀ n, countName reg n ≤ 1) ∧
    (∀ name (f g : MigFunc), lookupReg reg name = some g →
      AddPluginMigration reg name f =
        .error (("plugin migration function already registered for \"" ++ name ++ "\"").toList)) := by
  intro entries reg hrun
  constructor
  · exact registerFrom_at_most_one entries [] reg (fun n => by simp [countName]) hrun
  · intro name f g hl
    unfold AddPluginMigration
    rw [hl]

/-- Concrete migration function used by witnesses. -/
def migW : MigFunc := fun _ => .ok []

/-- Concrete registration sequence used by the C6 witness. -/
def entriesW : List (String × MigFunc) := [("inputs.a", migW), ("inputs.b", migW)]

/-- Concrete resulting registry of `entriesW`. -/
def regW : Registry := [("inputs.a", migW), ("inputs.b", migW)]

/-- Witness for C6 at a concrete registration sequence. -/
theorem registry_at_most_one_match_witness :
    countName regW "inputs.a" ≤ 1 ∧
    AddPluginMigration regW "inputs.a" migW =
      .error (("plugin migration function already registered for \"" ++ "inputs.a" ++ "\"").toList) := by
  have h := registry_at_most_one_match entriesW regW rfl
  exact ⟨h.1 "inputs.a", h.2 "inputs.a" migW migW rfl⟩

/-! ## Safety of the per-file pipeline (C10) -/

theorem sectionsOfCategory_not_outOfRange :
    ∀ (cat : String) (l : List (String × Elem)),
    sectionsOfCategory cat l ≠ .error .outOfRange := by
  intro cat l
  induction l with
  | nil => simp [sectionsOfCategory]
  | cons e rest ih =>
    obtain ⟨plugin, el⟩ := e
    cases el with
    | table t => simp [sectionsOfCategory]
    | keyValue => simp [sectionsOfCategory]
    | tableArray tbls =>
      cases hrec : sectionsOfCategory cat rest with
      | error e' =>
        rw [hrec] at ih
        simpa [sectionsOfCategory, hrec, Except.map] using ih
      | ok s => simp [sectionsOfCategory, hrec, Except.map]

theorem splitToSectionsAux_not_outOfRange :
    ∀ (l : List (String × Elem)), splitToSectionsAux l ≠ .error .outOfRange := by
  intro l
  induction l with
  | nil => simp [splitToSectionsAux]
  | cons e rest ih =>
    obtain ⟨name, el⟩ := e
    by_cases hcat : isCategory name
    · cases el with
      | table cat =>
        cases hs : sectionsOfCategory name cat.fields with
        | error e' =>
          have hnc := sectionsOfCategory_not_outOfRange name cat.fields
          rw [hs] at hnc
          simpa [splitToSectionsAux, hcat, hs] using hnc
        | ok s =>
          cases hr : splitToSectionsAux rest with
          | error e' =>
            rw [hr] at ih
            simpa [splitToSectionsAux, hcat, hs, hr] using ih
          | ok r => simp [splitToSectionsAux, hcat, hs, hr]
      | tableArray tbls => simp [splitToSectionsAux, hcat]
      | keyValue => simp [splitToSectionsAux, hcat]
    · cases el with
      | table t =>
        cases hr : splitToSectionsAux rest with
        | error e' =>
          rw [hr] at ih
          simpa [splitToSectionsAux, hcat, hr, Except.map] using ih
        | ok r => simp [splitToSectionsAux, hcat, hr, Except.map]
      | tableArray tbls => simp [splitToSectionsAux, hcat]
      | keyValue => simp [splitToSectionsAux, hcat]

theorem splitToSections_not_outOfRange (root : Tbl) :
    splitToSections root ≠ .error .outOfRange := by
  unfold splitToSections
  cases h : splitToSectionsAux root.fields with
  | error e =>
    have hna := splitToSectionsAux_not_outOfRange root.fields
    rw [h] at hna
    simpa [Except.map] using hna
  | ok l => simp [Except.map]

theorem dispatchSections_not_outOfRange (reg : Registry) :
    ∀ (ss : List Section), dispatchSections reg ss ≠ .error .outOfRange := by
  intro ss
  induction ss with
  | nil => simp [dispatchSections]
  | cons s rest ih =>
    cases hl : lookupReg reg s.name with
    | none =>
      cases hr : dispatchSections reg rest with
      | error e =>
        rw [hr] at ih
        simpa [dispatchSections, hl, hr, Except.map] using ih
      | ok l => simp [dispatchSections, hl, hr, Except.map]
    | some migrate =>
      cases hm : migrate s.content with
      | error e => simp [dispatchSections, hl, hm]
      | ok result =>
        cases hr : dispatchSections reg rest with
        | error e =>
          rw [hr] at ih
          simpa [dispatchSections, hl, hm, hr, Except.map] using ih
        | ok l => simp [dispatchSections, hl, hm, hr, Except.map]

theorem assignTextToSections_cons (data : List Char) (s0 : Section) (rest : List Section) :
    ∃ out, assignTextToSections data (s0 :: rest) = some out := by
  simp only [assignTextToSections]
  by_cases h : s0.begin > 0
  · exact ⟨_, by rw [if_pos h]⟩
  · exact ⟨_, by rw [if_neg h]⟩

/-- C10: `main` rejects an empty section list with the fatal error
`no TOML configuration found`, and `assignTextToSections` is only ever
reached with a non-empty list, so its unguarded `sections[0]` access can
never go out of bounds (the pipeline never produces the out-of-range
panic). -/
theorem processFile_no_oob :
    ∀ (reg : Registry) (data : List Char) (root : Tbl),
    processFile reg data root ≠ .error .outOfRange ∧
    (splitToSections root = .ok [] →
      processFile reg data root = .error (.fatal ("no TOML configuration found").toList)) := by
  intro reg data root
  cases hs : splitToSections root with
  | error e =>
    constructor
    · have hns := splitToSections_not_outOfRange root
      rw [hs] at hns
      simpa [processFile, hs] using hns
    · intro h
      cases h
  | ok ss =>
    cases ss with
    | nil =>
      constructor
      · simp [processFile, hs]
      · intro _
        simp [processFile, hs]
    | cons s0 rest =>
      constructor
      · obtain ⟨out, hout⟩ := assignTextToSections_cons data s0 rest
        cases hd : dispatchSections reg out with
        | error e =>
          have hnd := dispatchSections_not_outOfRange reg out
          rw [hd] at hnd
          simpa [processFile, hs, hout, hd] using hnd
        | ok l => simp [processFile, hs, hout, hd]
      · intro h
        simp at h

/-- Witness for C10 at a concrete empty parse tree. -/
theorem processFile_no_oob_witness :
    processFile [] [] (.mk "" 0 []) = .error (.fatal ("no TOML configuration found").toList) :=
  (processFile_no_oob [] [] (.mk "" 0 [])).2 rfl

/-! ## Extraction ordering (C7) -/

theorem mem_insertByBegin {x z : Section} : ∀ {l : List Section},
    z ∈ insertByBegin x l ↔ z = x ∨ z ∈ l := by
  intro l
  induction l with
  | nil => simp [insertByBegin]
  | cons y ys ih =>
    by_cases h : x.begin ≤ y.begin
    · simp [insertByBegin, h]
    · simp only [insertByBegin, if_neg h, List.mem_cons, ih]
      tauto

theorem insertByBegin_sorted {x : Section} : ∀ {l : List Section},
    l.Pairwise (fun a b => a.begin ≤ b.begin) →
    (insertByBegin x l).Pairwise (fun a b => a.begin ≤ b.begin) := by
  intro l
  induction l with
  | nil => intro _; simp [insertByBegin]
  | cons y ys ih =>
    intro hp
    rw [List.pairwise_cons] at hp
    obtain ⟨hy, hys⟩ := hp
    by_cases h : x.begin ≤ y.begin
    · rw [insertByBegin, if_pos h, List.pairwise_cons]
      refine ⟨?_, List.pairwise_cons.mpr ⟨hy, hys⟩⟩
      intro z hz
      rcases List.mem_cons.mp hz with hz | hz
      · exact hz ▸ h
      · exact le_trans h (hy z hz)
    · rw [insertByBegin, if_neg h, List.pairwise_cons]
      refine ⟨?_, ih hys⟩
      intro z hz
      rcases mem_insertByBegin.mp hz with hz | hz
      · exact hz ▸ le_of_lt (Nat.lt_of_not_le h)
      · exact hy z hz

theorem insertByBegin_filter (x : Section) (b : Nat) : ∀ (l : List Section),
    (insertByBegin x l).filter (fun s => s.begin == b) =
      (x :: l).filter (fun s => s.begin == b) := by
  intro l
  induction l with
  | nil => rfl
  | cons y ys ih =>
    by_cases h : x.begin ≤ y.begin
    · rw [insertByBegin, if_pos h]
    · rw [insertByBegin, if_neg h]
      cases hxb : (x.begin == b) with
      | true =>
        have hyb : (y.begin == b) = false := by
          have hx : x.begin = b := by simpa using hxb
          have hne : y.begin ≠ b := fun hc => h (le_of_eq (hx.trans hc.symm))
          simpa using hne
        simp only [List.filter_cons, hxb, hyb, if_true, if_false, Bool.false_eq_true]
        rw [ih]
        simp [List.filter_cons, hxb]
      | false =>
        simp only [List.filter_cons, hxb, Bool.false_eq_true, if_false]
        cases hyb : (y.begin == b) with
        | true =>
          simp only [if_true]
          rw [ih]
          simp [List.filter_cons, hxb]
        | false =>
          simp only [Bool.false_eq_true, if_false]
          rw [ih]
          simp [List.filter_cons, hxb]

theorem insertByBegin_perm (x : Section) : ∀ (l : List Section),
    (insertByBegin x l).Perm (x :: l) := by
  intro l
  induction l with
  | nil => exact List.Perm.refl _
  | cons y ys ih =>
    by_cases h : x.begin ≤ y.begin
    · rw [insertByBegin, if_pos h]
    · rw [insertByBegin, if_neg h]
      exact (List.Perm.cons y ih).trans (List.Perm.swap x y ys)

theorem sortByBegin_sorted : ∀ (l : List Section),
    (sortByBegin l).Pairwise (fun a b => a.begin ≤ b.begin) := by
  intro l
  induction l with
  | nil => simp [sortByBegin]
  | cons x xs ih => exact insertByBegin_sorted ih

theorem sortByBegin_filter (b : Nat) : ∀ (l : List Section),
    (sortByBegin l).filter (fun s => s.begin == b) = l.filter (fun s => s.begin == b) := by
  intro l
  induction l with
  | nil => rfl
  | cons x xs ih =>
    rw [sortByBegin, insertByBegin_filter]
    simp only [List.filter_cons]
    rw [ih]

theorem sortByBegin_perm : ∀ (l : List Section), (sortByBegin l).Perm l := by
  intro l
  induction l with
  | nil => exact List.Perm.refl _
  | cons x xs ih =>
    exact (insertByBegin_perm x (sortByBegin xs)).trans (List.Perm.cons x ih)

/-- C7: the section list returned by `splitToSections` is the discovered
list sorted by `begin` ascending with a stable sort: it is a permutation
of the discovery list, pairwise ascending in `begin`, and for every
begin value the subsequence of sections having that value keeps its
discovery order. -/
theorem splitToSections_sorted_stable :
    ∀ (root : Tbl) (l0 l : List Section),
    splitToSectionsAux root.fields = .ok l0 →
    splitToSections root = .ok l →
    l.Pairwise (fun a b => a.begin ≤ b.begin) ∧
    l.Perm l0 ∧
    (∀ b, l.filter (fun s => s.begin == b) = l0.filter (fun s => s.begin == b)) := by
  intro root l0 l haux hsplit
  unfold splitToSections at hsplit
  rw [haux] at hsplit
  simp only [Except.map] at hsplit
  have hl : l = sortByBegin l0 := (Except.ok.inj hsplit).symm
  subst hl
  exact ⟨sortByBegin_sorted l0, sortByBegin_perm l0, fun b => sortByBegin_filter b l0⟩

/-- Concrete parse tree for the C7 witness: discovery order `b@5, a@1,
c@5` with a duplicate begin value. -/
def rootSortW : Tbl :=
  .mk "" 0 [("b", .table (.mk "b" 5 [])), ("a", .table (.mk "a" 1 [])),
    ("c", .table (.mk "c" 5 []))]

/-- Witness for C7: the result is sorted and the two sections sharing
`begin = 5` keep their discovery order (`b` before `c`). -/
theorem splitToSections_sorted_stable_witness :
    ([⟨"a", 1, some (.mk "a" 1 []), []⟩, ⟨"b", 5, some (.mk "b" 5 []), []⟩,
      ⟨"c", 5, some (.mk "c" 5 []), []⟩] : List Section).Pairwise
        (fun a b => a.begin ≤ b.begin) ∧
    ([⟨"a", 1, some (.mk "a" 1 []), []⟩, ⟨"b", 5, some (.mk "b" 5 []), []⟩,
      ⟨"c", 5, some (.mk "c" 5 []), []⟩] : List Section).filter
        (fun s => s.begin == 5) =
      ([⟨"b", 5, some (.mk "b" 5 []), []⟩, ⟨"a", 1, some (.mk "a" 1 []), []⟩,
        ⟨"c", 5, some (.mk "c" 5 []), []⟩] : List Section).filter
        (fun s => s.begin == 5) := by
  have h := splitToSections_sorted_stable rootSortW
    [⟨"b", 5, some (.mk "b" 5 []), []⟩, ⟨"a", 1, some (.mk "a" 1 []), []⟩,
      ⟨"c", 5, some (.mk "c" 5 []), []⟩]
    [⟨"a", 1, some (.mk "a" 1 []), []⟩, ⟨"b", 5, some (.mk "b" 5 []), []⟩,
      ⟨"c", 5, some (.mk "c" 5 []), []⟩] rfl rfl
  exact ⟨h.1, h.2.2 5⟩

/-! ## Dispatch frame (C5) -/

/-- C5: a successful dispatch preserves the list length and, per index,
the section's name, begin, and structured content; a section whose name
is not registered keeps its reconstructed `rawText` byte-identical, and
a registered section's `rawText` is exactly the bytes returned by its
migration function (no mixing). -/
theorem dispatch_frame :
    ∀ (reg : Registry) (ss ss' : List Section),
    dispatchSections reg ss = .ok ss' →
    ss'.length = ss.length ∧
    ∀ i (hi : i < ss.length) (hi' : i < ss'.length),
      (ss'.get ⟨i, hi'⟩).name = (ss.get ⟨i, hi⟩).name ∧
      (ss'.get ⟨i, hi'⟩).begin = (ss.get ⟨i, hi⟩).begin ∧
      (ss'.get ⟨i, hi'⟩).content = (ss.get ⟨i, hi⟩).content ∧
      (lookupReg reg (ss.get ⟨i, hi⟩).name = none →
        (ss'.get ⟨i, hi'⟩).raw = (ss.get ⟨i, hi⟩).raw) ∧
      (∀ f, lookupReg reg (ss.get ⟨i, hi⟩).name = some f →
        f (ss.get ⟨i, hi⟩).content = .ok (ss'.get ⟨i, hi'⟩).raw) := by
  intro reg ss
  induction ss with
  | nil =>
    intro ss' h
    simp only [dispatchSections] at h
    cases h
    exact ⟨rfl, fun i hi _ => absurd hi (Nat.not_lt_zero i)⟩
  | cons s rest ih =>
    intro ss' h
    cases hl : lookupReg reg s.name with
    | none =>
      cases hr : dispatchSections reg rest with
      | error e =>
        rw [dispatchSections, hl, hr] at h
        cases h
      | ok l =>
        rw [dispatchSections, hl, hr] at h
        simp only [Except.map] at h
        have hss' : ss' = s :: l := (Except.ok.inj h).symm
        subst hss'
        obtain ⟨hlen, hidx⟩ := ih l hr
        refine ⟨by simpa using hlen, ?_⟩
        intro i hi hi'
        cases i with
        | zero =>
          refine ⟨rfl, rfl, rfl, fun _ => rfl, ?_⟩
          intro f hf
          simp only [List.get] at hf
          rw [hl] at hf
          cases hf
        | succ j =>
          exact hidx j (Nat.lt_of_succ_lt_succ hi) (Nat.lt_of_succ_lt_succ hi')
    | some migrate =>
      cases hm : migrate s.content with
      | error e =>
        simp only [dispatchSections, hl, hm] at h
        cases h
      | ok result =>
        cases hr : dispatchSections reg rest with
        | error e =>
          simp only [dispatchSections, hl, hm, hr, Except.map] at h
          cases h
        | ok l =>
          simp only [dispatchSections, hl, hm, hr, Except.map] at h
          have hss' : ss' = ⟨s.name, s.begin, s.content, result⟩ :: l := (Except.ok.inj h).symm
          subst hss'
          obtain ⟨hlen, hidx⟩ := ih l hr
          refine ⟨by simpa using hlen, ?_⟩
          intro i hi hi'
          cases i with
          | zero =>
            refine ⟨rfl, rfl, rfl, ?_, ?_⟩
            · intro hnone
              simp only [List.get] at hnone
              rw [hl] at hnone
              cases hnone
            · intro f hf
              simp only [List.get] at hf
              rw [hl] at hf
              cases hf
              exact hm
          | succ j =>
            exact hidx j (Nat.lt_of_succ_lt_succ hi) (Nat.lt_of_succ_lt_succ hi')

/-- Concrete table for the dispatch witnesses. -/
def cpuTblW : Tbl := .mk "cpu" 3 []

/-- Concrete migration returning a fixed replacement block. -/
def migCpuW : MigFunc := fun _ => .ok ("[[inputs.newcpu]]\n").toList

/-- Sections as reconstructed, for the C5 witness. -/
def ssW : List Section :=
  [⟨"agent", 1, none, ("[agent]\n").toList⟩, ⟨"inputs.cpu", 3, some cpuTblW, ("[[inputs.cpu]]\n").toList⟩]

/-- Dispatched sections, for the C5 witness. -/
def ssW' : List Section :=
  [⟨"agent", 1, none, ("[agent]\n").toList⟩, ⟨"inputs.cpu", 3, some cpuTblW, ("[[inputs.newcpu]]\n").toList⟩]

/-- Witness for C5: the unmatched `agent` section keeps its text and the
matched `inputs.cpu` section's text is the migration's output. -/
theorem dispatch_frame_witness :
    (ssW'.get ⟨0, by decide⟩).raw = (ssW.get ⟨0, by decide⟩).raw ∧
    migCpuW (ssW.get ⟨1, by decide⟩).content = .ok (ssW'.get ⟨1, by decide⟩).raw := by
  have h := dispatch_frame [("inputs.cpu", migCpuW)] ssW ssW' rfl
  exact ⟨(h.2 0 (by decide) (by decide)).2.2.2.1 rfl,
    (h.2 1 (by decide) (by decide)).2.2.2.2 migCpuW rfl⟩

/-! ## Multiple instances of the same plugin (C8) -/

/-- C8: a parse tree with two `[[inputs.cpu]]` occurrences at different
lines yields two distinct sections, both named `"inputs.cpu"`, each at
its own occurrence's starting line and carrying its own content, and the
dispatcher applies the registered migration to each occurrence
independently. -/
theorem multiple_instances :
    ∀ (t1 t2 : Tbl) (catLine : Nat) (f : MigFunc) (r1 r2 raw1 raw2 : List Char),
    t1.name = "cpu" → t2.name = "cpu" → t1.line ≤ t2.line →
    f (some t1) = .ok r1 → f (some t2) = .ok r2 →
    splitToSections
        (.mk "" 0 [("inputs", .table (.mk "inputs" catLine [("cpu", .tableArray [t1, t2])]))]) =
      .ok [⟨"inputs.cpu", t1.line, some t1, []⟩, ⟨"inputs.cpu", t2.line, some t2, []⟩] ∧
    dispatchSections [("inputs.cpu", f)]
        [⟨"inputs.cpu", t1.line, some t1, raw1⟩, ⟨"inputs.cpu", t2.line, some t2, raw2⟩] =
      .ok [⟨"inputs.cpu", t1.line, some t1, r1⟩, ⟨"inputs.cpu", t2.line, some t2, r2⟩] := by
  intro t1 t2 catLine f r1 r2 raw1 raw2 h1 h2 hline hf1 hf2
  constructor
  · simp [splitToSections, splitToSectionsAux, sectionsOfCategory, isCategory,
      Tbl.fields, h1, h2, Except.map, sortByBegin, insertByBegin, hline]
  · simp [dispatchSections, lookupReg, hf1, hf2, Except.map]

/-- Witness for C8 at two concrete cpu tables on lines 1 and 4. -/
theorem multiple_instances_witness :
    splitToSections
        (.mk "" 0 [("inputs", .table (.mk "inputs" 1 [("cpu", .tableArray [.mk "cpu" 1 [], .mk "cpu" 4 []])]))]) =
      .ok [⟨"inputs.cpu", 1, some (.mk "cpu" 1 []), []⟩, ⟨"inputs.cpu", 4, some (.mk "cpu" 4 []), []⟩] ∧
    dispatchSections [("inputs.cpu", migCpuW)]
        [⟨"inputs.cpu", 1, some (.mk "cpu" 1 []), ("[[inputs.cpu]]\nx = 1\n\n").toList⟩,
          ⟨"inputs.cpu", 4, some (.mk "cpu" 4 []), ("[[inputs.cpu]]\ny = 2\n").toList⟩] =
      .ok [⟨"inputs.cpu", 1, some (.mk "cpu" 1 []), ("[[inputs.newcpu]]\n").toList⟩,
        ⟨"inputs.cpu", 4, some (.mk "cpu" 4 []), ("[[inputs.newcpu]]\n").toList⟩] :=
  multiple_instances (.mk "cpu" 1 []) (.mk "cpu" 4 []) 1 migCpuW _ _ _ _
    rfl rfl (by decide) rfl rfl

/-! ## Error scope (C4) -/

/-- A malformed parse tree: a top-level field that is not a table. -/
def badRootW : Tbl := .mk "" 0 [("x", .keyValue)]

/-- A well-formed parse tree for a one-table file `[agent]\n`. -/
def goodRootW : Tbl := .mk "" 0 [("agent", .table (.mk "agent" 1 []))]

/-- Counterexample to C4 as stated: an error in the first file makes the
whole run abort (`log.Fatalf` exits the process), so the second,
well-formed file is never processed — the multi-file loop does not
continue, while the same second file alone processes fine. -/
theorem error_scope_counterexample :
    runFiles [] [(("x = 1\n").toList, badRootW), (("[agent]\n").toList, goodRootW)] =
      .error (.fatal (("\"" ++ "x" ++ "\" is not a table").toList)) ∧
    runFiles [] [(("[agent]\n").toList, goodRootW)] = .ok [("[agent]\n").toList] :=
  ⟨rfl, rfl⟩

/-- C4 (amended): a malformed top-level field or category child, and a
migration function returning an error, abort the ENTIRE run via
`log.Fatal`: the error of the first failing file is the result of the
whole multi-file loop and no later file is processed; a migration
failure is reported with the offending section name and source line. -/
theorem error_scope_amended :
    (∀ (reg : Registry) (data : List Char) (root : Tbl) (files : List (List Char × Tbl))
      (e : RunError),
      processFile reg data root = .error e →
      runFiles reg ((data, root) :: files) = .error e) ∧
    (∀ (reg : Registry) (s : Section) (rest : List Section) (mf : MigFunc) (e : List Char),
      lookupReg reg s.name = some mf → mf s.content = .error e →
      dispatchSections reg (s :: rest) =
        .error (.fatal (("migrating \"" ++ s.name ++ "\" (line " ++ toString s.begin ++
          ") failed: ").toList ++ e))) := by
  constructor
  · intro reg data root files e h
    simp [runFiles, h]
  · intro reg s rest mf e hl hm
    simp [dispatchSections, hl, hm]

/-- A migration that always fails, for the C4 witness. -/
def migFailW : MigFunc := fun _ => .error ("boom").toList

/-- Witness for C4 (amended) at concrete inputs. -/
theorem error_scope_amended_witness :
    runFiles [] [(("x = 1\n").toList, badRootW), (("[agent]\n").toList, goodRootW)] =
      .error (.fatal (("\"" ++ "x" ++ "\" is not a table").toList)) ∧
    dispatchSections [("inputs.cpu", migFailW)] [⟨"inputs.cpu", 3, none, []⟩] =
      .error (.fatal (("migrating \"" ++ "inputs.cpu" ++ "\" (line " ++ toString (3 : Nat) ++
        ") failed: ").toList ++ ("boom").toList)) := by
  have h := error_scope_amended
  exact ⟨h.1 [] (("x = 1\n").toList) badRootW [(("[agent]\n").toList, goodRootW)] _ rfl,
    h.2 [("inputs.cpu", migFailW)] ⟨"inputs.cpu", 3, none, []⟩ [] migFailW (("boom").toList)
      rfl rfl⟩

/-! ## Header capture (C2) -/

/-- Input file with leading content before the first section. -/
def hdrDataW : List Char := ("# hi\n\n[agent]\nx = 1\n").toList

/-- Parse tree of `hdrDataW`: one `[agent]` table starting at line 3. -/
def hdrRootW : Tbl := .mk "" 0 [("agent", .table (.mk "agent" 3 []))]

/-- C2 is a code bug: for a first section beginning after line 1 the
callee does prepend a synthetic `"header"` section at begin 0 and fills
it with the leading lines, but the header exists only in
`assignTextToSections`' local slice (`append` rebinds the local
parameter), so main assembles the output without it: the leading lines
are missing from the output, contradicting the claim that they appear at
its start.  This theorem evaluates the pipeline at the failing input. -/
theorem header_capture_code_bug :
    splitToSections hdrRootW = .ok [⟨"agent", 3, some (.mk "agent" 3 []), []⟩] ∧
    assignLocal hdrDataW [⟨"agent", 3, some (.mk "agent" 3 []), []⟩] =
      some [⟨"header", 0, none, ("# hi\n\n").toList⟩,
        ⟨"agent", 3, some (.mk "agent" 3 []), ("[agent]\nx = 1\n").toList⟩] ∧
    processFile [] hdrDataW hdrRootW = .ok ("[agent]\nx = 1\n").toList ∧
    ("[agent]\nx = 1\n").toList ≠ hdrDataW :=
  ⟨rfl, rfl, rfl, by decide⟩

/-! ## Comment attachment (C3) -/

theorem isBlankLine_not_comment {tok : List Char} (h : isBlankLine tok = true) :
    isCommentLine tok = false := by
  unfold isBlankLine at h
  unfold isCommentLine
  rw [List.isEmpty_iff] at h
  rw [h]
  rfl

theorem joinTokens_ne_nil {toks : List (List Char)} (h : toks ≠ []) :
    joinTokens toks ≠ [] := by
  cases toks with
  | nil => exact absurd rfl h
  | cons t ts => simp [joinTokens]

/-- Scanning a run of comment lines inside a pair region only extends
the pending-comment buffer. -/
theorem scanPair_comments :
    ∀ (comments : List (List Char)) (stop lineno : Nat) (b : List Char)
      (tokrest : List (List Char)),
    (∀ c ∈ comments, isCommentLine c = true) → lineno + comments.length ≤ stop →
    scanPair stop (comments ++ tokrest) lineno b =
      scanPair stop tokrest (lineno + comments.length) (b ++ joinTokens comments) := by
  intro comments
  induction comments with
  | nil =>
    intro stop lineno b tokrest _ _
    simp [joinTokens]
  | cons c cs ih =>
    intro stop lineno b tokrest hall hle
    have hlt : lineno < stop := by
      have := hle
      simp only [List.length_cons] at this
      omega
    have hc : isCommentLine c = true := hall c (List.mem_cons_self c cs)
    rw [List.cons_append, scanPair, if_pos hlt, hc, if_pos rfl]
    rw [ih stop (lineno + 1) (b ++ c ++ ['\n']) tokrest
      (fun x hx => hall x (List.mem_cons_of_mem c hx)) (by simp only [List.length_cons] at hle ⊢; omega)]
    have harr : lineno + 1 + cs.length = lineno + (c :: cs).length := by
      simp only [List.length_cons]; omega
    have happ : b ++ c ++ ['\n'] ++ joinTokens cs = b ++ joinTokens (c :: cs) := by
      simp [joinTokens, List.append_assoc]
    rw [harr, happ]

/-- The scan loop consumes nothing once `lineno` has reached the stop
line. -/
theorem scanPair_at_stop {stop lineno : Nat} (h : ¬ lineno < stop) :
    ∀ (toks : List (List Char)) (buf : List Char),
    scanPair stop toks lineno buf = ([], toks, lineno, buf) := by
  intro toks buf
  cases toks with
  | nil => rfl
  | cons t ts => rw [scanPair, if_neg h]

/-- C3: (1) while scanning toward the next section's begin, a pending
comment block followed by a blank line is flushed into the *current*
section's text, placed immediately before the blank line itself; (2) a
pending comment block still unflushed when the scan reaches the next
section's boundary is flushed into the *next* section's buffer instead,
and the current section's text is left as it was. -/
theorem comment_attachment :
    (∀ (stop : Nat) (comments : List (List Char)) (blank : List Char)
      (rest : List (List Char)) (lineno : Nat),
      (∀ c ∈ comments, isCommentLine c = true) → isBlankLine blank = true →
      comments ≠ [] → lineno + comments.length < stop →
      scanPair stop (comments ++ blank :: rest) lineno [] =
        (joinTokens comments ++ blank ++ '\n' ::
            (scanPair stop rest (lineno + comments.length + 1) []).1,
          (scanPair stop rest (lineno + comments.length + 1) []).2)) ∧
    (∀ (comments rest2 : List (List Char)) (lineno : Nat) (cur next : Section)
      (sects : List Section),
      (∀ c ∈ comments, isCommentLine c = true) →
      lineno + comments.length = next.begin - 1 →
      assignLoop (comments ++ rest2) lineno cur (next :: sects) =
        cur :: assignLoop rest2 (next.begin - 1)
          ⟨next.name, next.begin, next.content, next.raw ++ joinTokens comments⟩ sects) := by
  constructor
  · intro stop comments blank rest lineno hall hblank hne hlt
    rw [scanPair_comments comments stop lineno [] (blank :: rest) hall (le_of_lt hlt)]
    have hnc : isCommentLine blank = false := isBlankLine_not_comment hblank
    have hbufne : (joinTokens comments).isEmpty = false := by
      cases hje : joinTokens comments with
      | nil => exact absurd hje (joinTokens_ne_nil hne)
      | cons a as => rfl
    rw [scanPair, if_pos hlt, hnc]
    simp only [Bool.false_eq_true, if_false, hblank, hbufne, Bool.not_false, Bool.and_self,
      if_true, List.nil_append]
  · intro comments rest2 lineno cur next sects hall heq
    rw [assignLoop]
    rw [scanPair_comments comments (next.begin - 1) lineno [] rest2 hall (le_of_eq heq)]
    rw [heq, scanPair_at_stop (lt_irrefl _)]
    simp

/-- Witness for C3 part (1): one comment line followed by a blank line
inside a region; the comment block lands in the current section's text
just before the blank line. -/
theorem comment_attachment_witness :
    scanPair 10 [("# a").toList, ([] : List Char)] 0 [] = (("# a\n\n").toList, [], 2, []) ∧
    assignLoop [("# doc").toList, ("[b]").toList] 1 (⟨"a", 1, none, ("[a]\n").toList⟩ : Section)
        [⟨"b", 3, none, []⟩] =
      [⟨"a", 1, none, ("[a]\n").toList⟩, ⟨"b", 3, none, ("# doc\n[b]\n").toList⟩] := by
  have h := comment_attachment
  constructor
  · rw [show [("# a").toList, ([] : List Char)] =
        [("# a").toList] ++ ([] : List Char) :: [] from rfl]
    rw [h.1 10 [("# a").toList] ([] : List Char) [] 0 (by decide) (by decide)
      (by decide) (by decide)]
    rfl
  · rw [show [("# doc").toList, ("[b]").toList] =
        [("# doc").toList] ++ [("[b]").toList] from rfl]
    rw [h.2 [("# doc").toList] [("[b]").toList] 1 (⟨"a", 1, none, ("[a]\n").toList⟩ : Section)
      (⟨"b", 3, none, []⟩ : Section) [] (by decide) (by decide)]
    rfl

/-! ## Round-trip infrastructure (C1, C9) -/

/-- `joinTokens` distributes over list append. -/
theorem joinTokens_append (a b : List (List Char)) :
    joinTokens (a ++ b) = joinTokens a ++ joinTokens b := by
  induction a with
  | nil => simp [joinTokens]
  | cons t ts ih => simp [joinTokens, ih]

theorem joinTokens_cons' (t : List Char) (ts : List (List Char)) :
    joinTokens (t :: ts) = (t ++ ['\n']) ++ joinTokens ts := by
  simp [joinTokens]

/-- The order-preservation condition of one pair scan: the pass never
writes a non-blank, non-comment line while the pending-comment buffer is
non-empty (the code would emit that line before the buffered comments,
breaking byte order). -/
def scanPairOk (stop : Nat) : List (List Char) → Nat → List Char → Bool
  | [], _, _ => true
  | tok :: rest, lineno, buf =>
    if lineno < stop then
      if isCommentLine tok then scanPairOk stop rest (lineno + 1) (buf ++ tok ++ ['\n'])
      else if isBlankLine tok && !buf.isEmpty then scanPairOk stop rest (lineno + 1) []
      else buf.isEmpty && scanPairOk stop rest (lineno + 1) buf
    else true

/-- The order-preservation condition over the whole pair loop. -/
def assignLoopOk : List (List Char) → Nat → List Section → Bool
  | _, _, [] => true
  | toks, lineno, next :: rest =>
    scanPairOk (next.begin - 1) toks lineno [] &&
      assignLoopOk (scanPair (next.begin - 1) toks lineno []).2.1
        (scanPair (next.begin - 1) toks lineno []).2.2.1 rest

/-- Under `scanPairOk`, one pair scan conserves the bytes in order: the
text written to the current section, then the left-over comment buffer,
then the unconsumed tokens, spell the original buffer and tokens. -/
theorem scanPair_concat :
    ∀ (toks : List (List Char)) (stop lineno : Nat) (buf d : List Char)
      (t : List (List Char)) (l : Nat) (b : List Char),
    scanPairOk stop toks lineno buf = true →
    scanPair stop toks lineno buf = (d, t, l, b) →
    d ++ b ++ joinTokens t = buf ++ joinTokens toks := by
  intro toks
  induction toks with
  | nil =>
    intro stop lineno buf d t l b _ heq
    rw [scanPair] at heq
    cases heq
    simp [joinTokens]
  | cons tok rest ih =>
    intro stop lineno buf d t l b hok heq
    rw [scanPair] at heq
    rw [scanPairOk] at hok
    by_cases hlt : lineno < stop
    · rw [if_pos hlt] at heq hok
      cases hc : isCommentLine tok with
      | true =>
        rw [hc] at heq hok
        simp only [if_true] at heq hok
        have hih := ih stop (lineno + 1) (buf ++ tok ++ ['\n']) d t l b hok heq
        rw [hih, joinTokens_cons']
        simp [List.append_assoc]
      | false =>
        rw [hc] at heq hok
        simp only [Bool.false_eq_true, if_false] at heq hok
        cases hb : (isBlankLine tok && !buf.isEmpty) with
        | true =>
          rw [hb] at heq hok
          simp only [if_true] at heq hok
          rcases hsp : scanPair stop rest (lineno + 1) [] with ⟨d', t', l', b'⟩
          rw [hsp] at heq
          cases heq
          have hih := ih stop (lineno + 1) [] d' t' l' b' hok hsp
          simp only [List.nil_append] at hih
          rw [joinTokens_cons']
          simp only [List.append_assoc, List.cons_append, List.nil_append]
          rw [show ('\n' :: (d' ++ (b' ++ joinTokens t')) : List Char) =
            '\n' :: (joinTokens rest) from by rw [← List.append_assoc, hih]]
        | false =>
          rw [hb] at heq hok
          simp only [Bool.false_eq_true, if_false] at heq hok
          rw [Bool.and_eq_true] at hok
          obtain ⟨hbe, hok'⟩ := hok
          have hbuf : buf = [] := List.isEmpty_iff.mp hbe
          subst hbuf
          rcases hsp : scanPair stop rest (lineno + 1) [] with ⟨d', t', l', b'⟩
          rw [hsp] at heq
          cases heq
          have hih := ih stop (lineno + 1) [] d' t' l' b' hok' hsp
          simp only [List.nil_append] at hih ⊢
          rw [joinTokens_cons']
          simp only [List.append_assoc, List.cons_append, List.nil_append]
          rw [show ('\n' :: (d' ++ (b' ++ joinTokens t')) : List Char) =
            '\n' :: (joinTokens rest) from by rw [← List.append_assoc, hih]]
    · rw [if_neg hlt] at heq
      cases heq
      simp

@[simp]
theorem rawConcat_nil : rawConcat [] = [] := rfl

@[simp]
theorem rawConcat_cons (s : Section) (l : List Section) :
    rawConcat (s :: l) = s.raw ++ rawConcat l := by
  simp [rawConcat]

/-- Under the order-preservation condition, the pair loop writes exactly
the joined remaining tokens after the current section's existing text:
the reconstruction is byte-conserving and order-preserving. -/
theorem assignLoop_rawConcat :
    ∀ (rest : List Section) (toks : List (List Char)) (lineno : Nat) (cur : Section),
    (∀ s ∈ rest, s.raw = []) → assignLoopOk toks lineno rest = true →
    rawConcat (assignLoop toks lineno cur rest) = cur.raw ++ joinTokens toks := by
  intro rest
  induction rest with
  | nil =>
    intro toks lineno cur _ _
    simp [assignLoop]
  | cons next rest' ih =>
    intro toks lineno cur hraw hok
    rw [assignLoopOk, Bool.and_eq_true] at hok
    obtain ⟨hok1, hok2⟩ := hok
    rw [assignLoop]
    rcases hsp : scanPair (next.begin - 1) toks lineno [] with ⟨d, t, l, b⟩
    rw [hsp] at hok2
    simp only at hok2
    have hnext : next.raw = [] := hraw next (List.mem_cons_self next rest')
    have hrest' : ∀ s ∈ rest', s.raw = [] := fun s hs => hraw s (List.mem_cons_of_mem next hs)
    have hrec := ih t l ⟨next.name, next.begin, next.content, next.raw ++ b⟩ hrest' hok2
    simp only [rawConcat_cons, hrec]
    have hconcat := scanPair_concat toks (next.begin - 1) lineno [] d t l b hok1 hsp
    simp only [List.nil_append] at hconcat
    rw [hnext]
    simp only [List.nil_append, List.append_assoc]
    rw [← List.append_assoc d b (joinTokens t), hconcat]

/-- `dropCR` is the identity on a list not ending in a carriage
return. -/
theorem dropCR_eq_self {l : List Char} (h : l.getLast? ≠ some '\r') : dropCR l = l := by
  unfold dropCR
  rw [if_neg]
  intro hc
  exact h hc.2

theorem dropCR_concat_cr (l : List Char) : dropCR (l ++ ['\r']) = l := by
  unfold dropCR
  rw [if_pos ⟨by simp, by simp⟩]
  simp

/-- A list without carriage returns does not end in one. -/
theorem getLast?_ne_cr {l : List Char} (h : '\r' ∉ l) : l.getLast? ≠ some '\r' := by
  intro hc
  cases hl : l with
  | nil => rw [hl] at hc; cases hc
  | cons a as =>
    rw [hl] at hc h
    have hmem : '\r' ∈ a :: as := by
      have hne : (a :: as) ≠ [] := List.cons_ne_nil a as
      rw [List.getLast?_eq_getLast _ hne] at hc
      have := List.getLast_mem hne
      rw [Option.some.inj hc] at this
      exact this
    exact h hmem

/-- Splitting back: scanning an LF-terminated, CR-free text yields
tokens whose newline-joined concatenation is the original text. -/
theorem joinTokens_scanLinesAux :
    ∀ (s acc : List Char), '\r' ∉ acc → '\r' ∉ s →
    (s.getLast? = some '\n' ∨ (s = [] ∧ acc = [])) →
    joinTokens (scanLinesAux acc s) = acc ++ s := by
  intro s
  induction s with
  | nil =>
    intro acc _ _ hlast
    rcases hlast with hlast | ⟨_, hacc⟩
    · cases hlast
    · subst hacc
      rfl
  | cons c rest ih =>
    intro acc hacc hs hlast
    have hcr_c : c ≠ '\r' := fun hc => hs (hc ▸ List.mem_cons_self c rest)
    have hcr_rest : '\r' ∉ rest := fun hm => hs (List.mem_cons_of_mem c hm)
    by_cases hcn : c = '\n'
    · subst hcn
      rw [scanLinesAux, if_pos rfl]
      rw [joinTokens, dropCR_eq_self (getLast?_ne_cr hacc)]
      cases hrest : rest with
      | nil => simp [scanLinesAux, joinTokens]
      | cons r rs =>
        have hlast2 : rest.getLast? = some '\n' := by
          rcases hlast with hlast | ⟨hc, _⟩
          · rw [hrest] at hlast ⊢
            rw [List.getLast?_cons_cons] at hlast
            exact hlast
          · cases hc
        have hrec := ih [] (by simp) hcr_rest (Or.inl hlast2)
        rw [hrest] at hrec
        rw [hrec]
        simp
    · rw [scanLinesAux, if_neg hcn]
      have hlast' : rest.getLast? = some '\n' := by
        rcases hlast with hlast | ⟨hc, _⟩
        · cases hrest : rest with
          | nil =>
            rw [hrest] at hlast
            simp only [List.getLast?_singleton] at hlast
            exact absurd (Option.some.inj hlast) hcn
          | cons r rs =>
            rw [hrest] at hlast
            rw [List.getLast?_cons_cons] at hlast
            exact hlast
        · cases hc
      have hrec := ih (acc ++ [c]) ?_ hcr_rest (Or.inl hlast')
      · rw [hrec]
        simp
      · intro hm
        rcases List.mem_append.mp hm with hm | hm
        · exact hacc hm
        · exact hcr_c (List.mem_singleton.mp hm).symm

theorem joinTokens_scanLines {s : List Char} (hcr : '\r' ∉ s)
    (hnl : s = [] ∨ s.getLast? = some '\n') :
    joinTokens (scanLines s) = s := by
  unfold scanLines
  apply joinTokens_scanLinesAux s [] (by simp) hcr
  rcases hnl with hnl | hnl
  · exact Or.inr ⟨hnl, rfl⟩
  · exact Or.inl hnl

/-! ## Reconstruction round-trip (C1) -/

theorem scanPairOk_at_stop {stop lineno : Nat} (h : ¬ lineno < stop)
    (toks : List (List Char)) (buf : List Char) :
    scanPairOk stop toks lineno buf = true := by
  cases toks with
  | nil => rfl
  | cons t ts => rw [scanPairOk, if_neg h]

/-- Counterexample to C1 as stated: for the well-formed file
`"\n[agent]\n"` (a blank line, then `[agent]` at line 2) the blank line
is assigned to the synthetic header section, which only exists in the
callee's local slice, so the concatenation of the caller-visible
sections' text is `"[agent]\n"` — not the original bytes. -/
theorem reconstruction_roundtrip_counterexample :
    splitToSections (.mk "" 0 [("agent", .table (.mk "agent" 2 []))]) =
      .ok [⟨"agent", 2, some (.mk "agent" 2 []), []⟩] ∧
    assignTextToSections ("\n[agent]\n").toList [⟨"agent", 2, some (.mk "agent" 2 []), []⟩] =
      some [⟨"agent", 2, some (.mk "agent" 2 []), ("[agent]\n").toList⟩] ∧
    rawConcat [⟨"agent", 2, some (.mk "agent" 2 []), ("[agent]\n").toList⟩] ≠
      ("\n[agent]\n").toList :=
  ⟨rfl, rfl, by decide⟩

/-- C1 (amended): the round trip holds for a well-formed input whose
first recognized section begins at line 1 (so the discarded synthetic
header owns no text), whose bytes are LF-terminated lines with no
carriage returns, and whose scan never writes a plain line while a
comment block is pending (`assignLoopOk`): then concatenating the
caller-visible sections' text after reconstruction reproduces the file
byte-for-byte. -/
theorem reconstruction_roundtrip_amended :
    ∀ (data : List Char) (s0 : Section) (rest : List Section) (out : List Section),
    s0.begin = 1 → s0.raw = [] → (∀ s ∈ rest, s.raw = []) →
    '\r' ∉ data → (data = [] ∨ data.getLast? = some '\n') →
    assignLoopOk (scanLines data) 0 (s0 :: rest) = true →
    assignTextToSections data (s0 :: rest) = some out →
    rawConcat out = data := by
  intro data s0 rest out hbegin hs0raw hrest hcr hnl hok hassign
  have hpos : s0.begin > 0 := by omega
  simp only [assignTextToSections, if_pos hpos] at hassign
  have hout : out = (assignLoop (scanLines data) 0 headerSection (s0 :: rest)).tail :=
    (Option.some.inj hassign).symm
  subst hout
  have h0 : scanPair (s0.begin - 1) (scanLines data) 0 [] = ([], scanLines data, 0, []) := by
    rw [hbegin]
    exact scanPair_at_stop (by omega) _ _
  rw [assignLoop, h0]
  simp only [List.tail_cons]
  have hok' : assignLoopOk (scanLines data) 0 rest = true := by
    rw [assignLoopOk, h0] at hok
    simp only at hok
    rw [Bool.and_eq_true] at hok
    exact hok.2
  rw [assignLoop_rawConcat rest (scanLines data) 0
    ⟨s0.name, s0.begin, s0.content, s0.raw ++ []⟩ hrest hok']
  simp only [hs0raw, List.append_nil, List.nil_append]
  exact joinTokens_scanLines hcr hnl

/-- Input for the C1 witness: a section at line 1, an inline comment
flushed by a blank line, a boundary at line 4. -/
def rtDataW : List Char := ("[a]\n# c\n\n[b]\n").toList

/-- Reconstructed sections of `rtDataW`. -/
def rtOutW : List Section :=
  [⟨"a", 1, none, ("[a]\n# c\n\n").toList⟩, ⟨"b", 4, none, ("[b]\n").toList⟩]

/-- Witness for C1 (amended) at a concrete two-section file. -/
theorem reconstruction_roundtrip_amended_witness :
    rawConcat rtOutW = rtDataW :=
  reconstruction_roundtrip_amended rtDataW ⟨"a", 1, none, []⟩ [⟨"b", 4, none, []⟩] rtOutW
    rfl rfl
    (by
      intro s hs
      rw [List.mem_singleton] at hs
      subst hs
      rfl)
    (by decide) (Or.inr (by decide)) (by decide) rfl

/-! ## Line-terminator normalization (C9) -/

/-- "Ends in a newline byte, or is empty": the shape of every buffer the
reconstruction writes. -/
def nlTerm (l : List Char) : Prop := l = [] ∨ l.getLast? = some '\n'

theorem nlTerm_append {a b : List Char} (ha : nlTerm a) (hb : nlTerm b) :
    nlTerm (a ++ b) := by
  rcases hb with hb | hb
  · subst hb
    simpa [List.append_nil] using ha
  · right
    rw [List.getLast?_append, hb]
    rfl

theorem nlTerm_join (toks : List (List Char)) : nlTerm (joinTokens toks) := by
  induction toks with
  | nil => exact Or.inl rfl
  | cons t ts ih =>
    rw [joinTokens_cons']
    exact nlTerm_append (Or.inr (List.getLast?_concat _)) ih

theorem nlTerm_write (x y d : List Char) (h : nlTerm d) : nlTerm (x ++ y ++ '\n' :: d) := by
  have hsplit : x ++ y ++ '\n' :: d = ((x ++ y) ++ ['\n']) ++ d := by simp
  rw [hsplit]
  exact nlTerm_append (Or.inr (List.getLast?_concat _)) h

theorem nlTerm_cons_write (y d : List Char) (h : nlTerm d) : nlTerm (y ++ '\n' :: d) := by
  have hx := nlTerm_write [] y d h
  simpa using hx

/-- Every chunk one pair scan writes (and the left-over comment buffer)
is a concatenation of newline-terminated units. -/
theorem scanPair_nlTerm :
    ∀ (toks : List (List Char)) (stop lineno : Nat) (buf d : List Char)
      (t : List (List Char)) (l : Nat) (b : List Char),
    nlTerm buf → scanPair stop toks lineno buf = (d, t, l, b) →
    nlTerm d ∧ nlTerm b := by
  intro toks
  induction toks with
  | nil =>
    intro stop lineno buf d t l b hbuf heq
    rw [scanPair] at heq
    cases heq
    exact ⟨Or.inl rfl, hbuf⟩
  | cons tok rest ih =>
    intro stop lineno buf d t l b hbuf heq
    rw [scanPair] at heq
    by_cases hlt : lineno < stop
    · rw [if_pos hlt] at heq
      cases hc : isCommentLine tok with
      | true =>
        rw [hc] at heq
        simp only [if_true] at heq
        have hbuf' : nlTerm (buf ++ tok ++ ['\n']) := Or.inr (List.getLast?_concat _)
        exact ih stop (lineno + 1) (buf ++ tok ++ ['\n']) d t l b hbuf' heq
      | false =>
        rw [hc] at heq
        simp only [Bool.false_eq_true, if_false] at heq
        cases hb2 : (isBlankLine tok && !buf.isEmpty) with
        | true =>
          rw [hb2] at heq
          simp only [if_true] at heq
          rcases hsp : scanPair stop rest (lineno + 1) [] with ⟨d', t', l', b'⟩
          rw [hsp] at heq
          cases heq
          obtain ⟨hd', hb'⟩ := ih stop (lineno + 1) [] d' t' l' b' (Or.inl rfl) hsp
          exact ⟨nlTerm_write buf tok d' hd', hb'⟩
        | false =>
          rw [hb2] at heq
          simp only [Bool.false_eq_true, if_false] at heq
          rcases hsp : scanPair stop rest (lineno + 1) buf with ⟨d', t', l', b'⟩
          rw [hsp] at heq
          cases heq
          obtain ⟨hd', hb'⟩ := ih stop (lineno + 1) buf d' t' l' b' hbuf hsp
          exact ⟨nlTerm_cons_write tok d' hd', hb'⟩
    · rw [if_neg hlt] at heq
      cases heq
      exact ⟨Or.inl rfl, hbuf⟩

/-- Every buffer after the full pair loop is newline-terminated or
empty. -/
theorem assignLoop_nlTerm :
    ∀ (rest : List Section) (toks : List (List Char)) (lineno : Nat) (cur : Section),
    nlTerm cur.raw → (∀ s ∈ rest, nlTerm s.raw) →
    ∀ s' ∈ assignLoop toks lineno cur rest, nlTerm s'.raw := by
  intro rest
  induction rest with
  | nil =>
    intro toks lineno cur hcur _ s' hs'
    rw [assignLoop, List.mem_singleton] at hs'
    subst hs'
    exact nlTerm_append hcur (nlTerm_join toks)
  | cons next rest' ih =>
    intro toks lineno cur hcur hrest s' hs'
    rw [assignLoop] at hs'
    rcases hsp : scanPair (next.begin - 1) toks lineno [] with ⟨d, t, l, b⟩
    rw [hsp] at hs'
    obtain ⟨hd, hb⟩ := scanPair_nlTerm toks (next.begin - 1) lineno [] d t l b (Or.inl rfl) hsp
    rcases List.mem_cons.mp hs' with hs' | hs'
    · subst hs'
      exact nlTerm_append hcur hd
    · refine ih t l ⟨next.name, next.begin, next.content, next.raw ++ b⟩
        (nlTerm_append (hrest next (List.mem_cons_self next rest')) hb)
        (fun s hs => hrest s (List.mem_cons_of_mem next hs)) s' hs'

theorem rawConcat_nlTerm {ss : List Section} (h : ∀ s ∈ ss, nlTerm s.raw) :
    nlTerm (rawConcat ss) := by
  induction ss with
  | nil => exact Or.inl rfl
  | cons s rest ih =>
    rw [rawConcat_cons]
    exact nlTerm_append (h s (List.mem_cons_self s rest))
      (ih (fun x hx => h x (List.mem_cons_of_mem s hx)))

theorem mem_joinTokens {c : Char} :
    ∀ {toks : List (List Char)}, c ∈ joinTokens toks → (∃ t ∈ toks, c ∈ t) ∨ c = '\n' := by
  intro toks
  induction toks with
  | nil =>
    intro h
    cases h
  | cons t ts ih =>
    intro h
    rw [joinTokens] at h
    rcases List.mem_append.mp h with h | h
    · exact Or.inl ⟨t, List.mem_cons_self t ts, h⟩
    · rcases List.mem_cons.mp h with h | h
      · exact Or.inr h
      · rcases ih h with ⟨u, hu, hcu⟩ | h
        · exact Or.inl ⟨u, List.mem_cons_of_mem t hu, hcu⟩
        · exact Or.inr h

theorem joinTokens_subset_of_suffix {c : Char} {t toks : List (List Char)}
    (hsuf : t <:+ toks) (hc : c ∈ joinTokens t) : c ∈ joinTokens toks := by
  obtain ⟨p, hp⟩ := hsuf
  rw [← hp, joinTokens_append]
  exact List.mem_append.mpr (Or.inr hc)

/-- The unconsumed tokens after a pair scan are a suffix of the input
tokens. -/
theorem scanPair_rest_suffix :
    ∀ (toks : List (List Char)) (stop lineno : Nat) (buf d : List Char)
      (t : List (List Char)) (l : Nat) (b : List Char),
    scanPair stop toks lineno buf = (d, t, l, b) → t <:+ toks := by
  intro toks
  induction toks with
  | nil =>
    intro stop lineno buf d t l b heq
    rw [scanPair] at heq
    cases heq
    exact List.suffix_refl []
  | cons tok rest ih =>
    intro stop lineno buf d t l b heq
    rw [scanPair] at heq
    by_cases hlt : lineno < stop
    · rw [if_pos hlt] at heq
      cases hc : isCommentLine tok with
      | true =>
        rw [hc] at heq
        simp only [if_true] at heq
        exact (ih stop (lineno + 1) (buf ++ tok ++ ['\n']) d t l b heq).trans
          (List.suffix_cons tok rest)
      | false =>
        rw [hc] at heq
        simp only [Bool.false_eq_true, if_false] at heq
        cases hb2 : (isBlankLine tok && !buf.isEmpty) with
        | true =>
          rw [hb2] at heq
          simp only [if_true] at heq
          rcases hsp : scanPair stop rest (lineno + 1) [] with ⟨d', t', l', b'⟩
          rw [hsp] at heq
          cases heq
          exact (ih stop (lineno + 1) [] d' t' l' b' hsp).trans (List.suffix_cons tok rest)
        | false =>
          rw [hb2] at heq
          simp only [Bool.false_eq_true, if_false] at heq
          rcases hsp : scanPair stop rest (lineno + 1) buf with ⟨d', t', l', b'⟩
          rw [hsp] at heq
          cases heq
          exact (ih stop (lineno + 1) buf d' t' l' b' hsp).trans (List.suffix_cons tok rest)
    · rw [if_neg hlt] at heq
      cases heq
      exact List.suffix_refl _

/-- Every byte a pair scan writes comes from the incoming buffer or the
newline-joined tokens. -/
theorem scanPair_mem :
    ∀ (toks : List (List Char)) (stop lineno : Nat) (buf d : List Char)
      (t : List (List Char)) (l : Nat) (b : List Char) (c : Char),
    scanPair stop toks lineno buf = (d, t, l, b) → (c ∈ d ∨ c ∈ b) →
    c ∈ buf ∨ c ∈ joinTokens toks := by
  intro toks
  induction toks with
  | nil =>
    intro stop lineno buf d t l b c heq hc
    rw [scanPair] at heq
    cases heq
    rcases hc with hc | hc
    · cases hc
    · exact Or.inl hc
  | cons tok rest ih =>
    intro stop lineno buf d t l b c heq hc
    rw [scanPair] at heq
    by_cases hlt : lineno < stop
    · rw [if_pos hlt] at heq
      cases hcmt : isCommentLine tok with
      | true =>
        rw [hcmt] at heq
        simp only [if_true] at heq
        rcases ih stop (lineno + 1) (buf ++ tok ++ ['\n']) d t l b c heq hc with hm | hm
        · rcases List.mem_append.mp hm with hm | hm
          · rcases List.mem_append.mp hm with hm | hm
            · exact Or.inl hm
            · refine Or.inr ?_
              rw [joinTokens]
              exact List.mem_append.mpr (Or.inl hm)
          · refine Or.inr ?_
            rw [joinTokens]
            refine List.mem_append.mpr (Or.inr ?_)
            exact List.mem_cons.mpr (Or.inl (List.mem_singleton.mp hm))
        · refine Or.inr ?_
          rw [joinTokens]
          refine List.mem_append.mpr (Or.inr (List.mem_cons.mpr (Or.inr hm)))
      | false =>
        rw [hcmt] at heq
        simp only [Bool.false_eq_true, if_false] at heq
        cases hb2 : (isBlankLine tok && !buf.isEmpty) with
        | true =>
          rw [hb2] at heq
          simp only [if_true] at heq
          rcases hsp : scanPair stop rest (lineno + 1) [] with ⟨d', t', l', b'⟩
          rw [hsp] at heq
          cases heq
          rcases hc with hc | hc
          · rcases List.mem_append.mp hc with hm | hm
            · rcases List.mem_append.mp hm with hm | hm
              · exact Or.inl hm
              · refine Or.inr ?_
                rw [joinTokens]
                exact List.mem_append.mpr (Or.inl hm)
            · rcases List.mem_cons.mp hm with hm | hm
              · refine Or.inr ?_
                rw [joinTokens]
                exact List.mem_append.mpr (Or.inr (List.mem_cons.mpr (Or.inl hm)))
              · rcases ih stop (lineno + 1) [] d' t' l' b' c hsp (Or.inl hm) with hx | hx
                · cases hx
                · refine Or.inr ?_
                  rw [joinTokens]
                  exact List.mem_append.mpr (Or.inr (List.mem_cons.mpr (Or.inr hx)))
          · rcases ih stop (lineno + 1) [] d' t' l' b' c hsp (Or.inr hc) with hx | hx
            · cases hx
            · refine Or.inr ?_
              rw [joinTokens]
              exact List.mem_append.mpr (Or.inr (List.mem_cons.mpr (Or.inr hx)))
        | false =>
          rw [hb2] at heq
          simp only [Bool.false_eq_true, if_false] at heq
          rcases hsp : scanPair stop rest (lineno + 1) buf with ⟨d', t', l', b'⟩
          rw [hsp] at heq
          cases heq
          rcases hc with hc | hc
          · rcases List.mem_append.mp hc with hm | hm
            · refine Or.inr ?_
              rw [joinTokens]
              exact List.mem_append.mpr (Or.inl hm)
            · rcases List.mem_cons.mp hm with hm | hm
              · refine Or.inr ?_
                rw [joinTokens]
                exact List.mem_append.mpr (Or.inr (List.mem_cons.mpr (Or.inl hm)))
              · rcases ih stop (lineno + 1) buf d' t' l' b' c hsp (Or.inl hm) with hx | hx
                · exact Or.inl hx
                · refine Or.inr ?_
                  rw [joinTokens]
                  exact List.mem_append.mpr (Or.inr (List.mem_cons.mpr (Or.inr hx)))
          · rcases ih stop (lineno + 1) buf d' t' l' b' c hsp (Or.inr hc) with hx | hx
            · exact Or.inl hx
            · refine Or.inr ?_
              rw [joinTokens]
              exact List.mem_append.mpr (Or.inr (List.mem_cons.mpr (Or.inr hx)))
    · rw [if_neg hlt] at heq
      cases heq
      rcases hc with hc | hc
      · cases hc
      · exact Or.inl hc

/-- Every byte of the reconstructed buffers comes from a pre-existing
buffer or from the newline-joined scanner tokens. -/
theorem assignLoop_mem :
    ∀ (rest : List Section) (toks : List (List Char)) (lineno : Nat) (cur : Section) (c : Char),
    c ∈ rawConcat (assignLoop toks lineno cur rest) →
    c ∈ cur.raw ∨ (∃ s ∈ rest, c ∈ s.raw) ∨ c ∈ joinTokens toks := by
  intro rest
  induction rest with
  | nil =>
    intro toks lineno cur c hc
    rw [assignLoop] at hc
    simp only [rawConcat_cons, rawConcat_nil, List.append_nil] at hc
    rcases List.mem_append.mp hc with hc | hc
    · exact Or.inl hc
    · exact Or.inr (Or.inr hc)
  | cons next rest' ih =>
    intro toks lineno cur c hc
    rw [assignLoop] at hc
    rcases hsp : scanPair (next.begin - 1) toks lineno [] with ⟨d, t, l, b⟩
    rw [hsp] at hc
    rw [rawConcat_cons] at hc
    rcases List.mem_append.mp hc with hc | hc
    · rcases List.mem_append.mp hc with hc | hc
      · exact Or.inl hc
      · rcases scanPair_mem toks (next.begin - 1) lineno [] d t l b c hsp (Or.inl hc) with hx | hx
        · cases hx
        · exact Or.inr (Or.inr hx)
    · rcases ih t l ⟨next.name, next.begin, next.content, next.raw ++ b⟩ c hc with hx | hx | hx
      · rcases List.mem_append.mp hx with hx | hx
        · exact Or.inr (Or.inl ⟨next, List.mem_cons_self next rest', hx⟩)
        · rcases scanPair_mem toks (next.begin - 1) lineno [] d t l b c hsp (Or.inr hx) with hy | hy
          · cases hy
          · exact Or.inr (Or.inr hy)
      · obtain ⟨s, hs, hcs⟩ := hx
        exact Or.inr (Or.inl ⟨s, List.mem_cons_of_mem next hs, hcs⟩)
      · exact Or.inr (Or.inr (joinTokens_subset_of_suffix
          (scanPair_rest_suffix toks (next.begin - 1) lineno [] d t l b hsp) hx))

/-- A CRLF-terminated file: each line followed by `\r\n`. -/
def joinCRLF : List (List Char) → List Char
  | [] => []
  | t :: ts => t ++ '\r' :: '\n' :: joinCRLF ts

theorem scanLinesAux_no_nl :
    ∀ (t acc s : List Char), '\n' ∉ t →
    scanLinesAux acc (t ++ s) = scanLinesAux (acc ++ t) s := by
  intro t
  induction t with
  | nil =>
    intro acc s _
    simp
  | cons c t' ih =>
    intro acc s hnl
    have hc : c ≠ '\n' := fun h => hnl (h ▸ List.mem_cons_self c t')
    rw [List.cons_append, scanLinesAux, if_neg hc]
    rw [ih (acc ++ [c]) s (fun h => hnl (List.mem_cons_of_mem c h))]
    simp [List.append_assoc]

/-- Scanning a CRLF file yields exactly its lines (the terminators are
stripped, CR included). -/
theorem scanLines_joinCRLF :
    ∀ (ls : List (List Char)), (∀ l ∈ ls, '\n' ∉ l) →
    scanLines (joinCRLF ls) = ls := by
  intro ls
  induction ls with
  | nil =>
    intro _
    rfl
  | cons t ts ih =>
    intro hnl
    unfold scanLines at ih ⊢
    rw [joinCRLF]
    have hsplit : t ++ '\r' :: '\n' :: joinCRLF ts = (t ++ ['\r']) ++ '\n' :: joinCRLF ts := by
      simp
    rw [hsplit, scanLinesAux_no_nl (t ++ ['\r']) [] ('\n' :: joinCRLF ts) ?hn]
    case hn =>
      intro hm
      rcases List.mem_append.mp hm with hm | hm
      · exact hnl t (List.mem_cons_self t ts) hm
      · cases List.mem_singleton.mp hm
    rw [scanLinesAux, if_pos rfl]
    rw [List.nil_append, dropCR_concat_cr]
    rw [ih (fun l hl => hnl l (List.mem_cons_of_mem t hl))]

theorem mem_rawConcat_tail (l : List Section) (c : Char) (hc : c ∈ rawConcat l.tail) :
    c ∈ rawConcat l := by
  cases l with
  | nil => exact hc
  | cons h t =>
    rw [rawConcat_cons]
    exact List.mem_append.mpr (Or.inr hc)

/-- Shared facts about a reconstruction run started on empty buffers:
every output buffer is newline-terminated or empty, and every output
byte stems from the newline-joined scanner tokens. -/
theorem assignLoop_facts (data : List Char) (cur : Section) (nexts : List Section)
    (hcur : cur.raw = []) (hnexts : ∀ s ∈ nexts, s.raw = []) :
    (∀ s' ∈ assignLoop (scanLines data) 0 cur nexts, nlTerm s'.raw) ∧
    (∀ c, c ∈ rawConcat (assignLoop (scanLines data) 0 cur nexts) →
      c ∈ joinTokens (scanLines data)) := by
  constructor
  · exact assignLoop_nlTerm nexts _ 0 cur (Or.inl hcur) (fun s hs => Or.inl (hnexts s hs))
  · intro c hc
    rcases assignLoop_mem nexts _ 0 cur c hc with hx | hx | hx
    · rw [hcur] at hx
      cases hx
    · obtain ⟨s, hs, hcs⟩ := hx
      rw [hnexts s hs] at hcs
      cases hcs
    · exact hx

/-- C9: every line written into a section's buffer carries exactly one
trailing newline (the scanner strips the original terminator, `\r`
included), so the reconstruction cannot reproduce an input whose last
line lacks a newline, nor one whose lines use CRLF endings — even with
no migration applied. -/
theorem line_normalization :
    ∀ (data : List Char) (s0 : Section) (rest : List Section) (out : List Section),
    s0.raw = [] → (∀ s ∈ rest, s.raw = []) →
    assignTextToSections data (s0 :: rest) = some out →
    ((data ≠ [] ∧ data.getLast? ≠ some '\n') ∨
      (∃ ls, ls ≠ [] ∧ (∀ l ∈ ls, '\n' ∉ l ∧ '\r' ∉ l) ∧ data = joinCRLF ls)) →
    rawConcat out ≠ data := by
  intro data s0 rest out hs0 hrest hassign hcase
  have hnexts : ∀ s ∈ s0 :: rest, s.raw = [] := by
    intro s hs
    rcases List.mem_cons.mp hs with hs | hs
    · exact hs ▸ hs0
    · exact hrest s hs
  have hfacts : nlTerm (rawConcat out) ∧
      (∀ c, c ∈ rawConcat out → c ∈ joinTokens (scanLines data)) := by
    simp only [assignTextToSections] at hassign
    by_cases hb : s0.begin > 0
    · rw [if_pos hb] at hassign
      have hout : out = (assignLoop (scanLines data) 0 headerSection (s0 :: rest)).tail :=
        (Option.some.inj hassign).symm
      obtain ⟨hnl, hmem⟩ := assignLoop_facts data headerSection (s0 :: rest) rfl hnexts
      subst hout
      constructor
      · exact rawConcat_nlTerm (fun s' hs' => hnl s' (List.mem_of_mem_tail hs'))
      · intro c hc
        exact hmem c (mem_rawConcat_tail _ c hc)
    · rw [if_neg hb] at hassign
      have hout : out = assignLoop (scanLines data) 0 s0 rest :=
        (Option.some.inj hassign).symm
      obtain ⟨hnl, hmem⟩ := assignLoop_facts data s0 rest hs0 hrest
      subst hout
      exact ⟨rawConcat_nlTerm hnl, hmem⟩
  obtain ⟨hnlterm, hmem⟩ := hfacts
  intro heq
  rcases hcase with ⟨hne, hlast⟩ | ⟨ls, hlsne, hprop, hdata⟩
  · rcases hnlterm with h0 | h0
    · rw [heq] at h0
      exact hne h0
    · rw [heq] at h0
      exact hlast h0
  · have hscan : scanLines data = ls := by
      rw [hdata]
      exact scanLines_joinCRLF ls (fun l hl => (hprop l hl).1)
    have hcr_in_data : '\r' ∈ data := by
      cases hls : ls with
      | nil => exact absurd hls hlsne
      | cons t ts =>
        rw [hdata, hls, joinCRLF]
        exact List.mem_append.mpr (Or.inr (List.mem_cons_self _ _))
    have hcr_out : '\r' ∈ rawConcat out := by
      rw [heq]
      exact hcr_in_data
    have hjoin : '\r' ∈ joinTokens ls := hscan ▸ hmem '\r' hcr_out
    rcases mem_joinTokens hjoin with ⟨l, hl, hcl⟩ | hEq
    · exact (hprop l hl).2 hcl
    · exact absurd hEq (by decide)

/-- Witness for C9: the file `"[a]"` (no trailing newline) reconstructs
to `"[a]\n"`, which differs from the original bytes. -/
theorem line_normalization_witness :
    rawConcat [⟨"a", 1, none, ("[a]\n").toList⟩] ≠ ("[a]").toList :=
  line_normalization ("[a]").toList ⟨"a", 1, none, []⟩ [] [⟨"a", 1, none, ("[a]\n").toList⟩]
    rfl (by intro s hs; cases hs) rfl (Or.inl ⟨by decide, by decide⟩)

end TelegrafMigration
